import Mathlib

/-!
Verification development for the batch code-resolution engine of this
repository (functions process_single_code, process_codes_to_solve and
retry_failed_codes of src/main.py), shallowly embedded in Lean.
External collaborators (the OpenAI-backed resolver simple_excel_query,
the file system) are modelled as explicit parameters and small state
types; all engine logic is translated directly from the source.
-/

set_option maxHeartbeats 1000000

namespace Scrapper

/-- Python str.strip removes ASCII whitespace from both ends; these are
the whitespace characters relevant to the engine's inputs. -/
def pyWs (c : Char) : Bool :=
  c = ' ' || c = '\t' || c = '\n' || c = '\r' || c = '\x0b' || c = '\x0c'

/-- Character-list form of Python str.strip. -/
def pyStripList (l : List Char) : List Char :=
  ((l.dropWhile pyWs).reverse.dropWhile pyWs).reverse

/-- Python line.strip(). -/
def pyStrip (s : String) : String :=
  String.mk (pyStripList s.data)

/-- Locate the first occurrence of a separator character, returning the
pieces before and after it (none when the character is absent). -/
def splitFirstAux (sep : Char) : List Char → Option (List Char × List Char)
  | [] => none
  | c :: cs =>
    if c = sep then some ([], cs)
    else
      match splitFirstAux sep cs with
      | none => none
      | some (a, b) => some (c :: a, b)

/-- Python sep in line. -/
def hasChar (sep : Char) (s : String) : Bool :=
  (splitFirstAux sep s.data).isSome

/-- Python line.split(sep, 1): at most one split, on the first occurrence. -/
def pySplit1 (sep : Char) (s : String) : List String :=
  match splitFirstAux sep s.data with
  | none => [s]
  | some (a, b) => [String.mk a, String.mk b]

/-- One record of result.json, as built by process_single_code
(fields original_line, original_code, product_name, found_code,
tokens_used, error). -/
structure Entry where
  original_line : String
  original_code : String
  product_name : String
  found_code : Option String
  tokens_used : Nat
  error : Option String
deriving DecidableEq, Repr

/-- Possible outcomes of the external resolver call
simple_excel_query inside the try block of process_single_code:
a success dict, an explicit error dict, or a raised exception. -/
inductive ResolveResult where
  | ok (response : String) (tokens : Nat)
  | err (msg : String)
  | exn (msg : String)
deriving DecidableEq, Repr

/-- The external Resolution Client, keyed by the query string the engine
builds. -/
def ResolveFn : Type := String → ResolveResult

/-- The f-string query of process_single_code. -/
def buildQuery (original_code product_name : String) : String :=
  "Código original: " ++ original_code ++ "\nBusca el código MD para: " ++ product_name

/-- The split performed by process_single_code on an already stripped
line: on the first tab when one is present, else on the first space. -/
def partsOf (line : String) : List String :=
  if hasChar '\t' line then pySplit1 '\t' line else pySplit1 ' ' line

/-- Shallow embedding of process_single_code (src/main.py lines 140-206).
The idx/total arguments feed only progress printing and are omitted; the
Python locals line, parts, original_code and product_name are inlined. -/
def processSingleCode (resolve : ResolveFn) (rawLine : String) : Option Entry :=
  if pyStrip rawLine = "" then none
  else if (partsOf (pyStrip rawLine)).length < 2 then
    some { original_line := pyStrip rawLine
           original_code := (partsOf (pyStrip rawLine)).headD ""
           product_name := ""
           found_code := none
           tokens_used := 0
           error := some "Formato inválido" }
  else
    match resolve (buildQuery (pyStrip ((partsOf (pyStrip rawLine)).headD ""))
        (pyStrip ((partsOf (pyStrip rawLine)).getD 1 ""))) with
    | ResolveResult.ok response tokens =>
      some { original_line := pyStrip rawLine
             original_code := pyStrip ((partsOf (pyStrip rawLine)).headD "")
             product_name := pyStrip ((partsOf (pyStrip rawLine)).getD 1 "")
             found_code := some response
             tokens_used := tokens
             error := none }
    | ResolveResult.err msg =>
      some { original_line := pyStrip rawLine
             original_code := pyStrip ((partsOf (pyStrip rawLine)).headD "")
             product_name := pyStrip ((partsOf (pyStrip rawLine)).getD 1 "")
             found_code := none
             tokens_used := 0
             error := some msg }
    | ResolveResult.exn msg =>
      some { original_line := pyStrip rawLine
             original_code := pyStrip ((partsOf (pyStrip rawLine)).headD "")
             product_name := pyStrip ((partsOf (pyStrip rawLine)).getD 1 "")
             found_code := none
             tokens_used := 0
             error := some msg }

/-- The query string the engine sends to the resolver for a given raw
line (matches the arguments process_single_code passes to
simple_excel_query on a well-formed line). -/
def lineQuery (rawLine : String) : String :=
  let line := pyStrip rawLine
  buildQuery (pyStrip ((partsOf line).headD "")) (pyStrip ((partsOf line).getD 1 ""))

/-- The processed_lines skip set of process_codes_to_solve
(lines 253-256): stripped original_line of every loaded entry whose
error field is None. -/
def processedLines (existing : List Entry) : List String :=
  (existing.filter (fun r => r.error = none)).map (fun r => pyStrip r.original_line)

/-- Line filtering of process_codes_to_solve line 271: drop lines that
strip to the empty string. -/
def nonEmptyLines (input : List String) : List String :=
  input.filter (fun l => !decide (pyStrip l = ""))

/-- The pending queue of process_codes_to_solve line 274: non-empty
lines whose stripped text is not in the skip set. -/
def pendingLines (existing : List Entry) (input : List String) : List String :=
  (nonEmptyLines input).filter (fun l => !decide (pyStrip l ∈ processedLines existing))

/-- Fuel-driven chunking helper (fuel bounds the recursion depth). -/
def chunksAux : Nat → Nat → List α → List (List α)
  | 0, _, _ => []
  | _ + 1, _, [] => []
  | fuel + 1, n, a :: t => (a :: t).take n :: chunksAux fuel n ((a :: t).drop n)

/-- The batching loop header of process_codes_to_solve line 289:
range(0, len(lines), max_workers) with slices of size max_workers.
Python raises on step 0; we return [] there and state claims only for
a positive worker count. -/
def chunks (n : Nat) (l : List α) : List (List α) :=
  if n = 0 then [] else chunksAux l.length n l

/-- Processing of one batch: each line through process_single_code,
None results skipped (the if result_entry guard of line 311). -/
def runBatch (resolve : ResolveFn) (batch : List String) : List Entry :=
  batch.filterMap (processSingleCode resolve)

/-- Shallow embedding of the batch loop of process_codes_to_solve
(lines 284-325): results starts as a copy of the loaded ledger and each
batch's outcomes are appended. Within a batch the source appends in
completion order; the embedding fixes submission order, which no claim
distinguishes. -/
def processRun (k : Nat) (resolve : ResolveFn) (existing : List Entry)
    (input : List String) : List Entry :=
  (chunks k (pendingLines existing input)).foldl
    (fun results batch => results ++ runBatch resolve batch) existing

/-- The error test of retry_failed_codes lines 356 and 374:
r.get('error') is not None. Out-of-range positions are not failed. -/
def failedAt (all : List Entry) (i : Nat) : Bool :=
  match all[i]? with
  | some r => r.error.isSome
  | none => false

/-- failed_indices of retry_failed_codes line 374: positions whose
entry has a non-null error. -/
def failedIndices (all : List Entry) : List Nat :=
  (List.range all.length).filter (failedAt all)

/-- One retried position (retry_failed_codes lines 391-421): rebuild the
line from the stored entry, run process_single_code, and on a non-None
result overwrite the original position in the results dictionary. -/
def retryStep (resolve : ResolveFn) (all : List Entry)
    (acc : List Entry) (i : Nat) : List Entry :=
  match all[i]? with
  | none => acc
  | some entry =>
    match processSingleCode resolve entry.original_line with
    | none => acc
    | some e => acc.set i e

/-- Shallow embedding of retry_failed_codes (lines 338-450): the failed
positions, batched by max_workers, are each reprocessed and overwritten
in place; the final ledger is the dictionary rehydrated in index order. -/
def retryRun (k : Nat) (resolve : ResolveFn) (all : List Entry) : List Entry :=
  (chunks k (failedIndices all)).foldl
    (fun acc batch => batch.foldl (retryStep resolve all) acc) all

/-- State of the result.json path on disk: absent, parseable with some
entry list, or present but unparseable. -/
inductive LedgerFile where
  | absent
  | parseable (entries : List Entry)
  | corrupt
deriving DecidableEq, Repr

/-- Ledger loading of process_codes_to_solve lines 243-260: a missing
file leaves existing_results empty; a parse failure is caught, a warning
is printed, and the run continues with existing_results still empty. -/
def loadForProcess : LedgerFile → List Entry
  | LedgerFile.absent => []
  | LedgerFile.parseable es => es
  | LedgerFile.corrupt => []

/-- Ledger loading of retry_failed_codes lines 343-353: a missing or
unparseable file prints an error and returns, aborting the pass. -/
def loadForRetry : LedgerFile → Option (List Entry)
  | LedgerFile.absent => none
  | LedgerFile.parseable es => some es
  | LedgerFile.corrupt => none

/-- process_codes_to_solve from the on-disk ledger state. -/
def processRunFile (k : Nat) (resolve : ResolveFn) (file : LedgerFile)
    (input : List String) : List Entry :=
  processRun k resolve (loadForProcess file) input

/-- retry_failed_codes from the on-disk ledger state; none means the
pass aborted before touching any work item. -/
def retryRunFile (k : Nat) (resolve : ResolveFn) (file : LedgerFile) :
    Option (List Entry) :=
  match loadForRetry file with
  | none => none
  | some es => some (retryRun k resolve es)

/-- Successive full-ledger snapshots written by the json.dump of
process_codes_to_solve lines 316-318: one write per appended outcome,
each containing every entry so far. -/
def snapshotsAux (base : List Entry) : List Entry → List (List Entry)
  | [] => []
  | e :: es => (base ++ [e]) :: snapshotsAux (base ++ [e]) es

/-- The sequence of ledger contents persisted during a processing run,
in write order. -/
def runSnapshots (_k : Nat) (resolve : ResolveFn) (existing : List Entry)
    (input : List String) : List (List Entry) :=
  snapshotsAux existing ((pendingLines existing input).filterMap (processSingleCode resolve))

/-- Whether retrying position i yields a non-None result entry, i.e.
whether the if result_entry guard of retry_failed_codes line 413 lets
the dictionary update and the subsequent write happen. -/
def retryProduces (resolve : ResolveFn) (all : List Entry) (i : Nat) : Bool :=
  match all[i]? with
  | none => false
  | some entry => (processSingleCode resolve entry.original_line).isSome

/-- Successive full-ledger snapshots written by the json.dump of
retry_failed_codes lines 423-427: after each completed retry whose
result entry is non-None, the dictionary is updated in place (the same
retryStep used by the pass itself) and the full rehydrated ledger is
written; a None result entry writes nothing. -/
def retrySnapshotsAux (resolve : ResolveFn) (all : List Entry) :
    List Nat → List Entry → List (List Entry)
  | [], _ => []
  | i :: is, acc =>
    if retryProduces resolve all i then
      retryStep resolve all acc i
        :: retrySnapshotsAux resolve all is (retryStep resolve all acc i)
    else
      retrySnapshotsAux resolve all is acc

/-- The sequence of ledger contents persisted during a retry pass, in
write order (like the retried entries themselves, independent of the
batch size). -/
def retrySnapshots (_k : Nat) (resolve : ResolveFn) (all : List Entry) :
    List (List Entry) :=
  retrySnapshotsAux resolve all (failedIndices all) all

/-- Micro-states of one persistence step. The source opens the file
with mode w (truncating it at once) and then writes the serialized
ledger; state t is the file content after t entries of the new ledger
have reached the disk, state 0 being the freshly truncated file. -/
def writeStates (l : List Entry) : List (List Entry) :=
  (List.range (l.length + 1)).map (fun t => l.take t)

/-- Scheduler events: a resolver call of item j of chunk c starts or
finishes. -/
inductive Event where
  | start (chunkIdx itemIdx : Nat)
  | finish (chunkIdx itemIdx : Nat)
deriving DecidableEq, Repr

/-- Chunk index of an event. -/
def chunkOf : Event → Nat
  | Event.start c _ => c
  | Event.finish c _ => c

/-- Item index of an event. -/
def itemOf : Event → Nat
  | Event.start _ j => j
  | Event.finish _ j => j

/-- The start events of a trace, as chunk/item pairs. -/
def startsOf (tr : List Event) : List (Nat × Nat) :=
  tr.filterMap (fun e =>
    match e with
    | Event.start c j => some (c, j)
    | Event.finish _ _ => none)

/-- The finish events of a trace, as chunk/item pairs. -/
def finishesOf (tr : List Event) : List (Nat × Nat) :=
  tr.filterMap (fun e =>
    match e with
    | Event.start _ _ => none
    | Event.finish c j => some (c, j))

/-- Number of in-flight resolver calls after a trace: starts seen minus
finishes seen. -/
def inFlight (tr : List Event) : Nat :=
  (startsOf tr).length - (finishesOf tr).length

/-- Execution trace of one batch of m items, chunk index c, under the
per-batch ThreadPoolExecutor of process_codes_to_solve lines 300-313:
every event belongs to this chunk, each item starts once and finishes
once (as_completed drains all futures before the with block exits), and
no prefix has more finishes than starts (a call cannot finish before it
starts). Interleaving within the batch is otherwise arbitrary. -/
def ChunkTrace (c m : Nat) (tr : List Event) : Prop :=
  (∀ e ∈ tr, chunkOf e = c ∧ itemOf e < m) ∧
  (startsOf tr).Nodup ∧
  (finishesOf tr).Nodup ∧
  (∀ j, j < m → Event.start c j ∈ tr ∧ Event.finish c j ∈ tr) ∧
  (∀ n, n < tr.length + 1 →
    (finishesOf (tr.take n)).length ≤ (startsOf (tr.take n)).length)

/-- Execution trace of a whole processing run: the batch loop runs the
chunks of the pending queue strictly in order, fully executing one
batch's trace before the next begins. -/
def RunTrace (k : Nat) (pending : List String) (tr : List Event) : Prop :=
  ∃ trs : List (List Event),
    tr = trs.flatten ∧
    trs.length = (chunks k pending).length ∧
    ∀ i, i < trs.length →
      ChunkTrace i ((chunks k pending).getD i []).length (trs.getD i [])

lemma dropWhile_eq_self_of_isPrefix {p : Char → Bool} {l r : List Char}
    (hl : l.dropWhile p = l) (hr : r <+: l) : r.dropWhile p = r := by
  cases r with
  | nil => rfl
  | cons a t =>
    obtain ⟨s, hs⟩ := hr
    cases l with
    | nil => simp at hs
    | cons b u =>
      rw [List.cons_append] at hs
      injection hs with h1 h2
      have hpb : p b = false := by
        cases hb : p b with
        | false => rfl
        | true =>
          rw [List.dropWhile_cons, if_pos hb] at hl
          have hle : (List.dropWhile p u).length ≤ u.length :=
            (List.dropWhile_suffix p).length_le
          rw [hl] at hle
          simp at hle
      subst h1
      rw [List.dropWhile_cons, if_neg (by simp [hpb])]

lemma pyStripList_eq (l : List Char) :
    pyStripList l = List.rdropWhile pyWs (l.dropWhile pyWs) := rfl

lemma pyStripList_idem (l : List Char) :
    pyStripList (pyStripList l) = pyStripList l := by
  rw [pyStripList_eq, pyStripList_eq]
  have hfix : List.dropWhile pyWs (l.dropWhile pyWs) = l.dropWhile pyWs :=
    List.dropWhile_idempotent pyWs l
  have h1 : List.dropWhile pyWs (List.rdropWhile pyWs (l.dropWhile pyWs))
      = List.rdropWhile pyWs (l.dropWhile pyWs) :=
    dropWhile_eq_self_of_isPrefix hfix ( List.rdropWhile_prefix pyWs (l.dropWhile pyWs))
  rw [h1, List.rdropWhile_idempotent]

lemma pyStrip_idem (s : String) : pyStrip (pyStrip s) = pyStrip s := by
  simp [pyStrip, pyStripList_idem]

lemma chunksAux_nil (fuel n : Nat) : chunksAux fuel n ([] : List α) = [] := by
  cases fuel <;> rfl

lemma chunksAux_congr (n : Nat) (hn : n ≠ 0) :
    ∀ (fuel1 fuel2 : Nat) (l : List α), l.length ≤ fuel1 → l.length ≤ fuel2 →
      chunksAux fuel1 n l = chunksAux fuel2 n l := by
  intro fuel1
  induction fuel1 with
  | zero =>
    intro fuel2 l h1 _
    have : l = [] := List.eq_nil_of_length_eq_zero (Nat.le_zero.mp h1)
    subst this
    rw [chunksAux_nil, chunksAux_nil]
  | succ f ih =>
    intro fuel2 l h1 h2
    cases l with
    | nil => rw [chunksAux_nil, chunksAux_nil]
    | cons a t =>
      cases fuel2 with
      | zero => simp at h2
      | succ g =>
        show (a :: t).take n :: chunksAux f n ((a :: t).drop n)
            = (a :: t).take n :: chunksAux g n ((a :: t).drop n)
        have hd : ((a :: t).drop n).length ≤ f := by
          simp only [List.length_drop, List.length_cons]
          simp only [List.length_cons] at h1
          omega
        have hd2 : ((a :: t).drop n).length ≤ g := by
          simp only [List.length_drop, List.length_cons]
          simp only [List.length_cons] at h2
          omega
        rw [ih g _ hd hd2]

lemma chunks_nil (n : Nat) : chunks n ([] : List α) = [] := by
  unfold chunks
  split
  · rfl
  · rfl

lemma chunks_cons (n : Nat) (hn : 0 < n) (l : List α) (hl : l ≠ []) :
    chunks n l = l.take n :: chunks n (l.drop n) := by
  obtain ⟨a, t, rfl⟩ : ∃ a t, l = a :: t := by
    cases l with
    | nil => exact absurd rfl hl
    | cons a t => exact ⟨a, t, rfl⟩
  unfold chunks
  rw [if_neg (Nat.pos_iff_ne_zero.mp hn), if_neg (Nat.pos_iff_ne_zero.mp hn)]
  show (a :: t).take n :: chunksAux t.length n ((a :: t).drop n)
      = (a :: t).take n :: chunksAux ((a :: t).drop n).length n ((a :: t).drop n)
  rw [chunksAux_congr n (Nat.pos_iff_ne_zero.mp hn) t.length ((a :: t).drop n).length _ ?_ le_rfl]
  simp only [List.length_drop, List.length_cons]
  omega

lemma chunks_flatten (n : Nat) (hn : 0 < n) (l : List α) :
    (chunks n l).flatten = l := by
  have H : ∀ (len : Nat) (l : List α), l.length = len → (chunks n l).flatten = l := by
    intro len
    induction len using Nat.strong_induction_on with
    | _ len ih =>
      intro l hl
      cases l with
      | nil => simp [chunks_nil]
      | cons a t =>
        rw [chunks_cons n hn _ (by simp), List.flatten_cons,
          ih ((a :: t).drop n).length (by subst hl; simp; omega) _ rfl]
        exact List.take_append_drop n (a :: t)
  exact H l.length l rfl

lemma chunks_size_le (n : Nat) (hn : 0 < n) (l : List α) :
    ∀ c ∈ chunks n l, c.length ≤ n := by
  have H : ∀ (len : Nat) (l : List α), l.length = len →
      ∀ c ∈ chunks n l, c.length ≤ n := by
    intro len
    induction len using Nat.strong_induction_on with
    | _ len ih =>
      intro l hl c hc
      cases l with
      | nil => rw [chunks_nil] at hc; simp at hc
      | cons a t =>
        rw [chunks_cons n hn _ (by simp)] at hc
        rcases List.mem_cons.mp hc with h | h
        · subst h; exact List.length_take_le n (a :: t)
        · exact ih ((a :: t).drop n).length (by subst hl; simp; omega) _ rfl c h
  exact H l.length l rfl

lemma chunks_getD_length (n : Nat) (hn : 0 < n) (l : List α) :
    ∀ i, i + 1 < (chunks n l).length → ((chunks n l).getD i []).length = n := by
  have H : ∀ (len : Nat) (l : List α), l.length = len →
      ∀ i, i + 1 < (chunks n l).length → ((chunks n l).getD i []).length = n := by
    intro len
    induction len using Nat.strong_induction_on with
    | _ len ih =>
      intro l hl i hi
      cases l with
      | nil => rw [chunks_nil] at hi; simp at hi
      | cons a t =>
        rw [chunks_cons n hn _ (by simp)] at hi ⊢
        cases i with
        | zero =>
          rw [List.getD_cons_zero]
          simp only [List.length_cons] at hi
          have hrest : chunks n ((a :: t).drop n) ≠ [] := by
            intro hemp
            rw [hemp] at hi
            simp at hi
          have hdrop : (a :: t).drop n ≠ [] := by
            intro hemp
            rw [hemp, chunks_nil] at hrest
            exact hrest rfl
          have hlen : n < (a :: t).length := by
            by_contra hle
            push_neg at hle
            exact hdrop (List.drop_eq_nil_of_le hle)
          rw [List.length_take]
          omega
        | succ j =>
          rw [List.getD_cons_succ]
          simp only [List.length_cons] at hi
          exact ih ((a :: t).drop n).length (by subst hl; simp; omega) _ rfl j (by omega)
  exact H l.length l rfl

lemma foldl_append_batches (r : ResolveFn) :
    ∀ (bs : List (List String)) (acc : List Entry),
      bs.foldl (fun results batch => results ++ runBatch r batch) acc
        = acc ++ bs.flatten.filterMap (processSingleCode r) := by
  intro bs
  induction bs with
  | nil => intro acc; simp
  | cons b bs ih =>
    intro acc
    simp only [runBatch] at ih ⊢
    rw [List.foldl_cons, ih, List.flatten_cons, List.filterMap_append, List.append_assoc]

/-- The batched append loop equals one flat append of all new outcomes. -/
lemma processRun_eq_append (k : Nat) (hk : 0 < k) (r : ResolveFn)
    (existing : List Entry) (input : List String) :
    processRun k r existing input
      = existing ++ (pendingLines existing input).filterMap (processSingleCode r) := by
  unfold processRun
  rw [foldl_append_batches, chunks_flatten k hk]

lemma foldl_flatten_steps (r : ResolveFn) (all : List Entry) :
    ∀ (bs : List (List Nat)) (acc : List Entry),
      bs.foldl (fun acc batch => batch.foldl (retryStep r all) acc) acc
        = bs.flatten.foldl (retryStep r all) acc := by
  intro bs
  induction bs with
  | nil => intro acc; rfl
  | cons b bs ih =>
    intro acc
    simp only [List.foldl_cons, List.flatten_cons, List.foldl_append, ih]

/-- The batched retry loop equals one flat fold over the failed indices. -/
lemma retryRun_eq_flat (k : Nat) (hk : 0 < k) (r : ResolveFn) (all : List Entry) :
    retryRun k r all = (failedIndices all).foldl (retryStep r all) all := by
  unfold retryRun
  rw [foldl_flatten_steps, chunks_flatten k hk]

/-- A line whose stripped text contains a separator, so that the split
of process_single_code yields the two expected fields. -/
def WellFormedLine (l : String) : Bool :=
  hasChar '\t' (pyStrip l) || hasChar ' ' (pyStrip l)

/-- A resolver that always returns a success dict. -/
def AlwaysOk (r : ResolveFn) : Prop :=
  ∀ q, ∃ resp tok, r q = ResolveResult.ok resp tok

lemma mem_pendingLines {existing : List Entry} {input : List String} {l : String} :
    l ∈ pendingLines existing input ↔
      l ∈ input ∧ pyStrip l ≠ "" ∧ pyStrip l ∉ processedLines existing := by
  simp only [pendingLines, nonEmptyLines, List.mem_filter, Bool.not_eq_eq_eq_not,
    Bool.not_true, decide_eq_false_iff_not]
  tauto

lemma mem_processedLines {existing : List Entry} {s : String} :
    s ∈ processedLines existing ↔
      ∃ e ∈ existing, e.error = none ∧ pyStrip e.original_line = s := by
  simp only [processedLines, List.mem_map, List.mem_filter, decide_eq_true_eq]
  tauto

lemma pySplit1_of_hasChar {c : Char} {s : String} (h : hasChar c s = true) :
    ∃ a b, splitFirstAux c s.data = some (a, b) ∧
      pySplit1 c s = [String.mk a, String.mk b] := by
  unfold hasChar at h
  obtain ⟨⟨a, b⟩, hab⟩ := Option.isSome_iff_exists.mp h
  exact ⟨a, b, hab, by unfold pySplit1; rw [hab]⟩

lemma pySplit1_of_not_hasChar {c : Char} {s : String} (h : hasChar c s = false) :
    pySplit1 c s = [s] := by
  unfold hasChar at h
  unfold pySplit1
  cases hs : splitFirstAux c s.data with
  | none => rfl
  | some ab => rw [hs] at h; simp at h

lemma partsOf_length_of_wellFormed {s : String}
    (h : (hasChar '\t' s || hasChar ' ' s) = true) : (partsOf s).length = 2 := by
  unfold partsOf
  cases ht : hasChar '\t' s with
  | true =>
    obtain ⟨a, b, _, hsp⟩ := pySplit1_of_hasChar ht
    rw [if_pos rfl, hsp]
    rfl
  | false =>
    rw [ht] at h
    simp only [Bool.false_or] at h
    obtain ⟨a, b, _, hsp⟩ := pySplit1_of_hasChar h
    rw [if_neg (by simp [ht]), hsp]
    rfl

lemma partsOf_length_of_malformed {s : String}
    (h : (hasChar '\t' s || hasChar ' ' s) = false) : (partsOf s).length = 1 := by
  unfold partsOf
  rcases Bool.or_eq_false_iff.mp h with ⟨ht, hsp⟩
  rw [if_neg (by simp [ht]), pySplit1_of_not_hasChar hsp]
  rfl

lemma processSingleCode_empty {r : ResolveFn} {l : String} (h : pyStrip l = "") :
    processSingleCode r l = none := by
  unfold processSingleCode
  rw [if_pos h]

lemma processSingleCode_isSome {r : ResolveFn} {l : String} (h : pyStrip l ≠ "") :
    (processSingleCode r l).isSome := by
  unfold processSingleCode
  rw [if_neg h]
  by_cases h2 : (partsOf (pyStrip l)).length < 2
  · rw [if_pos h2]; rfl
  · rw [if_neg h2]
    cases r (buildQuery (pyStrip ((partsOf (pyStrip l)).headD ""))
        (pyStrip ((partsOf (pyStrip l)).getD 1 ""))) <;> rfl

lemma processSingleCode_origin {r : ResolveFn} {l : String} {e : Entry}
    (h : processSingleCode r l = some e) : e.original_line = pyStrip l := by
  unfold processSingleCode at h
  by_cases h1 : pyStrip l = ""
  · rw [if_pos h1] at h; cases h
  · rw [if_neg h1] at h
    by_cases h2 : (partsOf (pyStrip l)).length < 2
    · rw [if_pos h2] at h
      cases h
      rfl
    · rw [if_neg h2] at h
      cases hr : r (buildQuery (pyStrip ((partsOf (pyStrip l)).headD ""))
          (pyStrip ((partsOf (pyStrip l)).getD 1 ""))) with
      | ok resp tok => rw [hr] at h; cases h; rfl
      | err msg => rw [hr] at h; cases h; rfl
      | exn msg => rw [hr] at h; cases h; rfl

lemma processSingleCode_malformed {r : ResolveFn} {l : String}
    (h : pyStrip l ≠ "") (hw : WellFormedLine l = false) :
    processSingleCode r l =
      some { original_line := pyStrip l
             original_code := pyStrip l
             product_name := ""
             found_code := none
             tokens_used := 0
             error := some "Formato inválido" } := by
  unfold WellFormedLine at hw
  unfold processSingleCode
  rw [if_neg h, if_pos (by rw [partsOf_length_of_malformed hw]; omega)]
  have hhead : (partsOf (pyStrip l)).headD "" = pyStrip l := by
    unfold partsOf
    rcases Bool.or_eq_false_iff.mp hw with ⟨ht, hsp⟩
    rw [if_neg (by simp [ht]), pySplit1_of_not_hasChar hsp]
    rfl
  rw [hhead]

lemma retryStep_length (r : ResolveFn) (all : List Entry) (acc : List Entry) (i : Nat) :
    (retryStep r all acc i).length = acc.length := by
  unfold retryStep
  split
  · rfl
  · split
    · rfl
    · exact List.length_set acc i _

lemma retryStep_getElem?_ne (r : ResolveFn) (all : List Entry) (acc : List Entry)
    {i j : Nat} (hij : i ≠ j) : (retryStep r all acc j)[i]? = acc[i]? := by
  unfold retryStep
  split
  · rfl
  · split
    · rfl
    · exact List.getElem?_set_ne (fun h => hij h.symm)

lemma processSingleCode_resolved (r : ResolveFn) {l : String}
    (h : pyStrip l ≠ "") (hw : WellFormedLine l = true) :
    processSingleCode r l =
      match r (lineQuery l) with
      | ResolveResult.ok resp tok =>
        some { original_line := pyStrip l
               original_code := pyStrip ((partsOf (pyStrip l)).headD "")
               product_name := pyStrip ((partsOf (pyStrip l)).getD 1 "")
               found_code := some resp
               tokens_used := tok
               error := none }
      | ResolveResult.err msg =>
        some { original_line := pyStrip l
               original_code := pyStrip ((partsOf (pyStrip l)).headD "")
               product_name := pyStrip ((partsOf (pyStrip l)).getD 1 "")
               found_code := none
               tokens_used := 0
               error := some msg }
      | ResolveResult.exn msg =>
        some { original_line := pyStrip l
               original_code := pyStrip ((partsOf (pyStrip l)).headD "")
               product_name := pyStrip ((partsOf (pyStrip l)).getD 1 "")
               found_code := none
               tokens_used := 0
               error := some msg } := by
  unfold WellFormedLine at hw
  unfold processSingleCode lineQuery
  rw [if_neg h, if_neg (by rw [partsOf_length_of_wellFormed hw]; omega)]

lemma filterMap_length_all_isSome {α β : Type} {f : α → Option β} :
    ∀ (xs : List α), (∀ x ∈ xs, (f x).isSome) → (xs.filterMap f).length = xs.length := by
  intro xs
  induction xs with
  | nil => intro _; rfl
  | cons x t ih =>
    intro h
    obtain ⟨y, hy⟩ := Option.isSome_iff_exists.mp (h x (List.mem_cons_self x t))
    rw [List.filterMap_cons_some hy, List.length_cons, List.length_cons,
      ih (fun a ha => h a (List.mem_cons_of_mem x ha))]

lemma mem_failedIndices {all : List Entry} {i : Nat} :
    i ∈ failedIndices all ↔ i < all.length ∧ failedAt all i = true := by
  simp [failedIndices, List.mem_filter, List.mem_range]

lemma retryFold_length (r : ResolveFn) (all : List Entry) :
    ∀ (idxs : List Nat) (acc : List Entry),
      (idxs.foldl (retryStep r all) acc).length = acc.length := by
  intro idxs
  induction idxs with
  | nil => intro acc; rfl
  | cons i is ih =>
    intro acc
    rw [List.foldl_cons, ih, retryStep_length]

lemma retryFold_getElem?_not_mem (r : ResolveFn) (all : List Entry) :
    ∀ (idxs : List Nat) (acc : List Entry) (i : Nat), i ∉ idxs →
      (idxs.foldl (retryStep r all) acc)[i]? = acc[i]? := by
  intro idxs
  induction idxs with
  | nil => intro acc i _; rfl
  | cons j js ih =>
    intro acc i hi
    have hij : i ≠ j := fun h => hi (h ▸ List.mem_cons_self j js)
    have hjs : i ∉ js := fun h => hi (List.mem_cons_of_mem j h)
    rw [List.foldl_cons, ih _ i hjs, retryStep_getElem?_ne r all acc hij]

lemma mem_nonEmptyLines {input : List String} {l : String} :
    l ∈ nonEmptyLines input ↔ l ∈ input ∧ pyStrip l ≠ "" := by
  simp [nonEmptyLines, List.mem_filter]

lemma pendingLines_eq_nil_iff {existing : List Entry} {input : List String} :
    pendingLines existing input = [] ↔
      ∀ l ∈ input, pyStrip l ≠ "" → pyStrip l ∈ processedLines existing := by
  constructor
  · intro h l hl hne
    by_contra hmem
    have hp : l ∈ pendingLines existing input := mem_pendingLines.mpr ⟨hl, hne, hmem⟩
    rw [h] at hp
    exact absurd hp (List.not_mem_nil l)
  · intro h
    rw [List.eq_nil_iff_forall_not_mem]
    intro l hl
    have hm := mem_pendingLines.mp hl
    exact hm.2.2 (h l hm.1 hm.2.1)

lemma processedLines_append (a b : List Entry) :
    processedLines (a ++ b) = processedLines a ++ processedLines b := by
  simp [processedLines, List.filter_append, List.map_append]

/-- The text before the first occurrence of a character. -/
def beforeFirst (c : Char) (s : String) : String :=
  String.mk (s.data.takeWhile (fun x => !decide (x = c)))

/-- The text after the first occurrence of a character. -/
def afterFirst (c : Char) (s : String) : String :=
  String.mk ((s.data.dropWhile (fun x => !decide (x = c))).drop 1)

lemma splitFirstAux_eq_take_drop {c : Char} :
    ∀ {l a b : List Char}, splitFirstAux c l = some (a, b) →
      a = l.takeWhile (fun x => !decide (x = c)) ∧
      b = (l.dropWhile (fun x => !decide (x = c))).drop 1 := by
  intro l
  induction l with
  | nil => intro a b h; cases h
  | cons c0 cs ih =>
    intro a b h
    unfold splitFirstAux at h
    by_cases hc : c0 = c
    · rw [if_pos hc] at h
      cases h
      subst hc
      constructor
      · simp [List.takeWhile_cons]
      · simp [List.dropWhile_cons]
    · rw [if_neg hc] at h
      cases hrec : splitFirstAux c cs with
      | none => rw [hrec] at h; cases h
      | some ab =>
        obtain ⟨a', b'⟩ := ab
        rw [hrec] at h
        cases h
        obtain ⟨ha, hb⟩ := ih hrec
        constructor
        · rw [List.takeWhile_cons, if_pos (by simp [hc])]
          rw [ha]
        · rw [List.dropWhile_cons, if_pos (by simp [hc])]
          exact hb

lemma hasChar_ne_empty {c : Char} {s : String} (h : hasChar c s = true) : s ≠ "" := by
  intro hs
  subst hs
  cases h

lemma hasChar_pyStrip_ne_empty {c : Char} {l : String}
    (h : hasChar c (pyStrip l) = true) : pyStrip l ≠ "" :=
  hasChar_ne_empty h

lemma partsOf_fields_tab {s : String} (ht : hasChar '\t' s = true) :
    (partsOf s).headD "" = beforeFirst '\t' s ∧
    (partsOf s).getD 1 "" = afterFirst '\t' s := by
  obtain ⟨a, b, hab, hsp⟩ := pySplit1_of_hasChar ht
  obtain ⟨ha, hb⟩ := splitFirstAux_eq_take_drop hab
  unfold partsOf
  rw [if_pos ht, hsp]
  subst ha
  subst hb
  exact ⟨rfl, rfl⟩

lemma partsOf_fields_space {s : String} (ht : hasChar '\t' s = false)
    (hs : hasChar ' ' s = true) :
    (partsOf s).headD "" = beforeFirst ' ' s ∧
    (partsOf s).getD 1 "" = afterFirst ' ' s := by
  obtain ⟨a, b, hab, hsp⟩ := pySplit1_of_hasChar hs
  obtain ⟨ha, hb⟩ := splitFirstAux_eq_take_drop hab
  unfold partsOf
  rw [if_neg (by simp [ht]), hsp]
  subst ha
  subst hb
  exact ⟨rfl, rfl⟩

lemma runBatch_cons (r : ResolveFn) (line : String) (rest : List String) :
    runBatch r (line :: rest) = (processSingleCode r line).toList ++ runBatch r rest := by
  cases h : processSingleCode r line <;> simp [runBatch, List.filterMap_cons, h]

lemma snapshotsAux_length (es : List Entry) :
    ∀ base, (snapshotsAux base es).length = es.length := by
  induction es with
  | nil => intro _; rfl
  | cons e t ih => intro base; simp [snapshotsAux, ih]

lemma snapshotsAux_getElem? (es : List Entry) :
    ∀ base i, i < es.length →
      (snapshotsAux base es)[i]? = some (base ++ es.take (i + 1)) := by
  induction es with
  | nil => intro base i hi; simp at hi
  | cons e t ih =>
    intro base i hi
    cases i with
    | zero => simp [snapshotsAux]
    | succ j =>
      simp only [snapshotsAux, List.getElem?_cons_succ]
      rw [ih (base ++ [e]) j (by simpa using hi), List.take_succ_cons]
      simp [List.append_assoc]

lemma writeStates_final (s : List Entry) : (writeStates s)[s.length]? = some s := by
  unfold writeStates
  rw [List.getElem?_map, List.getElem?_range (Nat.lt_succ_self s.length)]
  show some (List.take s.length s) = some s
  rw [List.take_length]

lemma writeStates_mem_isPrefix (s : List Entry) (t : Nat) (w : List Entry)
    (h : (writeStates s)[t]? = some w) : w <+: s := by
  unfold writeStates at h
  rw [List.getElem?_map] at h
  by_cases ht : t < s.length + 1
  · rw [List.getElem?_range ht] at h
    have h2 : some (List.take t s) = some w := h
    cases h2
    exact ⟨s.drop t, List.take_append_drop t s⟩
  · rw [List.getElem?_eq_none (by rw [List.length_range]; omega)] at h
    cases h

lemma retryStep_of_not_produces {r : ResolveFn} {all : List Entry} {i : Nat}
    (h : retryProduces r all i = false) (acc : List Entry) :
    retryStep r all acc i = acc := by
  unfold retryStep
  split
  · rfl
  · split
    · rfl
    · exfalso
      rename_i s1 entry heq s2 e hp
      unfold retryProduces at h
      rw [heq] at h
      have h2 : (processSingleCode r entry.original_line).isSome = false := h
      rw [hp] at h2
      cases h2

lemma retrySnapshotsAux_length (r : ResolveFn) (all : List Entry) :
    ∀ (idxs : List Nat) (acc : List Entry),
      (retrySnapshotsAux r all idxs acc).length
        = (idxs.filter (retryProduces r all)).length := by
  intro idxs
  induction idxs with
  | nil => intro acc; rfl
  | cons i is ih =>
    intro acc
    unfold retrySnapshotsAux
    rw [List.filter_cons]
    by_cases hp : retryProduces r all i
    · rw [if_pos hp, if_pos hp, List.length_cons, List.length_cons, ih]
    · rw [if_neg hp, if_neg hp, ih]

lemma retrySnapshotsAux_mem_foldl (r : ResolveFn) (all : List Entry) :
    ∀ (idxs : List Nat) (acc : List Entry) (s : List Entry),
      s ∈ retrySnapshotsAux r all idxs acc →
      ∃ p q, idxs = p ++ q ∧ s = p.foldl (retryStep r all) acc := by
  intro idxs
  induction idxs with
  | nil => intro acc s hs; cases hs
  | cons i is ih =>
    intro acc s hs
    unfold retrySnapshotsAux at hs
    by_cases hp : retryProduces r all i
    · rw [if_pos hp] at hs
      rcases List.mem_cons.mp hs with hs1 | hs2
      · exact ⟨[i], is, rfl, by rw [hs1]; rfl⟩
      · obtain ⟨p, q, hpq, hse⟩ := ih (retryStep r all acc i) s hs2
        refine ⟨i :: p, q, by rw [hpq]; rfl, ?_⟩
        rw [hse, List.foldl_cons]
    · rw [if_neg hp] at hs
      obtain ⟨p, q, hpq, hse⟩ := ih acc s hs
      refine ⟨i :: p, q, by rw [hpq]; rfl, ?_⟩
      rw [hse, List.foldl_cons,
        retryStep_of_not_produces (Bool.eq_false_iff.mpr hp) acc]

lemma retrySnapshotsAux_eq_nil (r : ResolveFn) (all : List Entry) :
    ∀ (idxs : List Nat) (acc : List Entry),
      retrySnapshotsAux r all idxs acc = [] →
      idxs.foldl (retryStep r all) acc = acc := by
  intro idxs
  induction idxs with
  | nil => intro acc _; rfl
  | cons i is ih =>
    intro acc h
    unfold retrySnapshotsAux at h
    by_cases hp : retryProduces r all i
    · rw [if_pos hp] at h
      cases h
    · rw [if_neg hp] at h
      rw [List.foldl_cons,
        retryStep_of_not_produces (Bool.eq_false_iff.mpr hp) acc]
      exact ih acc h

lemma retrySnapshotsAux_getLast (r : ResolveFn) (all : List Entry) :
    ∀ (idxs : List Nat) (acc : List Entry) (s : List Entry),
      (retrySnapshotsAux r all idxs acc).getLast? = some s →
      s = idxs.foldl (retryStep r all) acc := by
  intro idxs
  induction idxs with
  | nil => intro acc s h; cases h
  | cons i is ih =>
    intro acc s h
    unfold retrySnapshotsAux at h
    rw [List.foldl_cons]
    by_cases hp : retryProduces r all i
    · rw [if_pos hp] at h
      cases hrest : retrySnapshotsAux r all is (retryStep r all acc i) with
      | nil =>
        rw [hrest, List.getLast?_singleton] at h
        have hs : s = retryStep r all acc i := by
          injection h with h'
          exact h'.symm
        rw [hs, retrySnapshotsAux_eq_nil r all is _ hrest]
      | cons r0 r1 =>
        rw [hrest, List.getLast?_cons_cons, ← hrest] at h
        exact ih (retryStep r all acc i) s h
    · rw [if_neg hp] at h
      rw [retryStep_of_not_produces (Bool.eq_false_iff.mpr hp) acc]
      exact ih acc s h

/-- Resolver used in concrete witnesses: always succeeds with X. -/
def okResolve : ResolveFn := fun _ => ResolveResult.ok "X" 0

/-- Resolver used in concrete witnesses: always reports an error. -/
def errResolve : ResolveFn := fun _ => ResolveResult.err "boom"

/-- A successful ledger entry for the line A B, as produced by a run
with okResolve. -/
def successEntryAB : Entry :=
  { original_line := "A B", original_code := "A", product_name := "B",
    found_code := some "X", tokens_used := 0, error := none }

/-- A failed ledger entry for the line A B. -/
def failedEntryAB : Entry :=
  { original_line := "A B", original_code := "A", product_name := "B",
    found_code := none, tokens_used := 0, error := some "boom" }

/-- The failed entry a run with errResolve records for the line A B. -/
def errEntryAB : Entry := failedEntryAB

/-- C1: for every ledger entry whose error field is None, its stripped
origin_line is excluded from the pending queue that a subsequent
processing run computes over the same input, so the line is never
submitted to the resolver again. -/
theorem skip_set_correctness (existing : List Entry) (input : List String)
    (e : Entry) (he : e ∈ existing) (hsucc : e.error = none)
    (l : String) (hl : l ∈ pendingLines existing input) :
    pyStrip l ≠ pyStrip e.original_line := by
  intro heq
  exact (mem_pendingLines.mp hl).2.2
    (mem_processedLines.mpr ⟨e, he, hsucc, heq.symm⟩)

theorem skip_set_correctness_witness :
    "C D" ∈ pendingLines [successEntryAB] ["A B", "C D"] ∧
    pyStrip "C D" ≠ pyStrip "A B" :=
  ⟨by decide,
    skip_set_correctness [successEntryAB] ["A B", "C D"] successEntryAB
      (by decide) (by decide) "C D" (by decide)⟩

/-- C2 (amended): with an always-succeeding resolver, if every
non-empty input line is well formed then the pending queue computed
against the first run's ledger is empty, so a second run processes zero
items; if moreover the stripped non-empty lines are pairwise distinct,
each unique origin_line is submitted at most once across both runs. -/
theorem idempotent_resumption_amended (k : Nat) (hk : 0 < k) (r1 : ResolveFn)
    (h1 : AlwaysOk r1) (existing : List Entry) (input : List String)
    (hw : ∀ l ∈ input, pyStrip l ≠ "" → WellFormedLine l = true) :
    pendingLines (processRun k r1 existing input) input = [] ∧
    (((nonEmptyLines input).map pyStrip).Nodup →
      ((pendingLines existing input).map pyStrip
        ++ (pendingLines (processRun k r1 existing input) input).map pyStrip).Nodup) := by
  have hmain : pendingLines (processRun k r1 existing input) input = [] := by
    rw [pendingLines_eq_nil_iff]
    intro l hl hne
    rw [processRun_eq_append k hk, processedLines_append]
    by_cases hmem : pyStrip l ∈ processedLines existing
    · exact List.mem_append_left _ hmem
    · apply List.mem_append_right
      have hpend : l ∈ pendingLines existing input := mem_pendingLines.mpr ⟨hl, hne, hmem⟩
      obtain ⟨resp, tok, hok⟩ := h1 (lineQuery l)
      have hres := processSingleCode_resolved r1 hne (hw l hl hne)
      rw [hok] at hres
      apply mem_processedLines.mpr
      refine ⟨_, List.mem_filterMap.mpr ⟨l, hpend, hres⟩, rfl, ?_⟩
      show pyStrip (pyStrip l) = pyStrip l
      exact pyStrip_idem l
  refine ⟨hmain, ?_⟩
  intro hnd
  rw [hmain]
  simp only [List.map_nil, List.append_nil]
  unfold pendingLines
  exact List.Nodup.sublist (List.Sublist.map pyStrip (List.filter_sublist _)) hnd

theorem idempotent_resumption_cex :
    pendingLines (processRun 1 okResolve [] ["onlyonefield"]) ["onlyonefield"]
      = ["onlyonefield"] ∧
    (pendingLines [] ["a b", "a b"]).map pyStrip = ["a b", "a b"] := by decide

theorem idempotent_resumption_amended_witness :
    pendingLines (processRun 1 okResolve [] ["A B", "C D"]) ["A B", "C D"] = [] :=
  (idempotent_resumption_amended 1 (by decide) okResolve
    (fun _ => ⟨"X", 0, rfl⟩) [] ["A B", "C D"] (by decide)).1

/-- C3: a retry pass leaves the ledger length unchanged, keeps every
position whose entry had error = None identical (order and position
preserved), and only positions whose entry had a non-null error can
hold a different entry afterwards. -/
theorem retry_in_place (k : Nat) (hk : 0 < k) (r : ResolveFn) (all : List Entry) :
    (retryRun k r all).length = all.length ∧
    (∀ (i : Nat) (e : Entry), all[i]? = some e → e.error = none →
      (retryRun k r all)[i]? = some e) ∧
    (∀ i : Nat, (retryRun k r all)[i]? ≠ all[i]? →
      ∃ e, all[i]? = some e ∧ e.error ≠ none) := by
  rw [retryRun_eq_flat k hk]
  refine ⟨retryFold_length r all _ all, ?_, ?_⟩
  · intro i e hi he
    have hnotmem : i ∉ failedIndices all := by
      intro hmem
      have hfa := (mem_failedIndices.mp hmem).2
      simp [failedAt, hi, he] at hfa
    rw [retryFold_getElem?_not_mem r all _ all i hnotmem, hi]
  · intro i hne
    by_cases hf : failedAt all i = true
    · cases hi : all[i]? with
      | none => simp [failedAt, hi] at hf
      | some e =>
        simp only [failedAt, hi] at hf
        exact ⟨e, rfl, Option.isSome_iff_ne_none.mp hf⟩
    · exfalso
      apply hne
      have hnotmem : i ∉ failedIndices all := fun hmem => hf (mem_failedIndices.mp hmem).2
      exact retryFold_getElem?_not_mem r all _ all i hnotmem

theorem retry_in_place_witness :
    (retryRun 1 okResolve [successEntryAB, failedEntryAB])[0]? = some successEntryAB :=
  (retry_in_place 1 (by decide) okResolve [successEntryAB, failedEntryAB]).2.1
    0 successEntryAB (by decide) (by decide)

/-- C4 (amended): processing runs only append, so loaded positions are
stable; retry passes keep the length and mutate in place; a processing
run never appends a new entry for an origin_line that already has a
successful entry (the counterexample shows it does append a duplicate
when the existing entry is a failed one). -/
theorem ledger_position_stability (k : Nat) (hk : 0 < k) (r : ResolveFn)
    (existing : List Entry) (input : List String) (all : List Entry) :
    (∀ i, i < existing.length → (processRun k r existing input)[i]? = existing[i]?) ∧
    (retryRun k r all).length = all.length ∧
    (∀ e', e' ∈ (pendingLines existing input).filterMap (processSingleCode r) →
      ∀ e ∈ existing, e.error = none → e'.original_line ≠ pyStrip e.original_line) := by
  refine ⟨?_, ?_, ?_⟩
  · intro i hi
    rw [processRun_eq_append k hk]
    exact List.getElem?_append_left hi
  · rw [retryRun_eq_flat k hk]
    exact retryFold_length r all _ all
  · intro e' he' e he hsucc heq
    obtain ⟨l, hl, hsome⟩ := List.mem_filterMap.mp he'
    have horig := processSingleCode_origin hsome
    apply (mem_pendingLines.mp hl).2.2
    exact mem_processedLines.mpr ⟨e, he, hsucc, by rw [← heq, horig]⟩

theorem ledger_duplicate_append_cex :
    ((processRun 1 okResolve [failedEntryAB] ["A B"]).filter
      (fun e => e.original_line == "A B")).length = 2 := by decide

theorem ledger_position_stability_witness :
    (processRun 1 okResolve [failedEntryAB] ["C D"])[0]?
      = ([failedEntryAB] : List Entry)[0]? :=
  (ledger_position_stability 1 (by decide) okResolve [failedEntryAB] ["C D"] []).1
    0 (by decide)

/-- C6: every pending item yields exactly one recorded outcome whatever
the resolver does (no failure aborts the batch or the run), and an
error result or an exception during an item's resolve call is recorded
as a failed outcome carrying the error message, with a null result. -/
theorem per_item_failure_containment (k : Nat) (hk : 0 < k) (r : ResolveFn)
    (existing : List Entry) (input : List String) :
    ((pendingLines existing input).filterMap (processSingleCode r)).length
        = (pendingLines existing input).length ∧
    ∀ l ∈ pendingLines existing input, ∀ e, processSingleCode r l = some e →
      e ∈ processRun k r existing input ∧
      (WellFormedLine l = true →
        ∀ msg, (r (lineQuery l) = ResolveResult.err msg ∨
            r (lineQuery l) = ResolveResult.exn msg) →
          e.error = some msg ∧ e.found_code = none) := by
  constructor
  · apply filterMap_length_all_isSome
    intro l hl
    exact processSingleCode_isSome (mem_pendingLines.mp hl).2.1
  · intro l hl e he
    constructor
    · rw [processRun_eq_append k hk]
      exact List.mem_append_right _ (List.mem_filterMap.mpr ⟨l, hl, he⟩)
    · intro hwf msg hmsg
      have hne := (mem_pendingLines.mp hl).2.1
      rw [processSingleCode_resolved r hne hwf] at he
      rcases hmsg with hmsg | hmsg <;> rw [hmsg] at he <;> cases he <;> exact ⟨rfl, rfl⟩

theorem per_item_failure_containment_witness :
    errEntryAB ∈ processRun 1 errResolve [] ["A B"] ∧
    errEntryAB.error = some "boom" ∧ errEntryAB.found_code = none := by
  have h := (per_item_failure_containment 1 (by decide) errResolve [] ["A B"]).2
    "A B" (by decide) errEntryAB (by decide)
  exact ⟨h.1, h.2 (by decide) "boom" (Or.inl rfl)⟩

/-- C7 (amended): a missing ledger file gives the processing run an
empty ledger, and an unparseable one is caught with a warning so the
processing run also continues with an empty ledger instead of failing;
only the retry pass aborts before any work when the ledger file is
missing or unparseable. -/
theorem ledger_load_behavior (k : Nat) (r : ResolveFn) (input : List String) :
    processRunFile k r LedgerFile.absent input = processRun k r [] input ∧
    processRunFile k r LedgerFile.corrupt input = processRun k r [] input ∧
    retryRunFile k r LedgerFile.absent = none ∧
    retryRunFile k r LedgerFile.corrupt = none ∧
    (∀ es, retryRunFile k r (LedgerFile.parseable es) = some (retryRun k r es)) :=
  ⟨rfl, rfl, rfl, rfl, fun _ => rfl⟩

theorem corrupt_ledger_continues_cex :
    processRunFile 1 okResolve LedgerFile.corrupt ["A B"] = [successEntryAB] := by decide

/-- C8 (amended): the full ledger is rewritten after every individual
outcome that is added or replaced. During a processing run the i-th
write holds the loaded entries plus the first i+1 new outcomes; during
a retry pass one write follows every replacement, each write holding
the full rehydrated ledger with every replacement so far applied to the
loaded ledger, and the last write equalling the final retried ledger.
A completed write leaves exactly the written entries, so a crash
between writes preserves the last completed write; but a write is a
plain truncate-and-rewrite, so a crash during a write leaves some
prefix of the new content, not necessarily the content of the last
completed write (the counterexample shows the difference). -/
theorem persistence_rewrite_behavior (k : Nat) (hk : 0 < k) (r : ResolveFn)
    (existing : List Entry) (input : List String) (all : List Entry) :
    (runSnapshots k r existing input).length
        = ((pendingLines existing input).filterMap (processSingleCode r)).length ∧
    (∀ i, i < ((pendingLines existing input).filterMap (processSingleCode r)).length →
      (runSnapshots k r existing input)[i]? =
        some (existing ++
          ((pendingLines existing input).filterMap (processSingleCode r)).take (i + 1))) ∧
    (retrySnapshots k r all).length
        = ((failedIndices all).filter (retryProduces r all)).length ∧
    (∀ s ∈ retrySnapshots k r all, s.length = all.length ∧
      ∃ p q, failedIndices all = p ++ q ∧ s = p.foldl (retryStep r all) all) ∧
    (∀ s : List Entry, (retrySnapshots k r all).getLast? = some s →
      s = retryRun k r all) ∧
    (∀ s : List Entry, (writeStates s)[s.length]? = some s) ∧
    (∀ (s : List Entry) (t : Nat) (w : List Entry),
      (writeStates s)[t]? = some w → w <+: s) := by
  refine ⟨snapshotsAux_length _ existing, ?_, retrySnapshotsAux_length r all _ all,
    ?_, ?_, writeStates_final, writeStates_mem_isPrefix⟩
  · intro i hi
    exact snapshotsAux_getElem? _ existing i hi
  · intro s hs
    obtain ⟨p, q, hpq, hse⟩ := retrySnapshotsAux_mem_foldl r all _ all s hs
    refine ⟨?_, p, q, hpq, hse⟩
    rw [hse]
    exact retryFold_length r all p all
  · intro s hlast
    rw [retryRun_eq_flat k hk]
    exact retrySnapshotsAux_getLast r all _ all s hlast

theorem persistence_atomicity_cex :
    (writeStates ((runSnapshots 2 okResolve [] ["A B", "C D"]).getD 1 [])).getD 0 [failedEntryAB]
        = [] ∧
    (runSnapshots 2 okResolve [] ["A B", "C D"]).getD 0 [] = [successEntryAB] ∧
    ([] : List Entry) ≠ [successEntryAB] := by decide

theorem persistence_rewrite_behavior_witness :
    ((runSnapshots 2 okResolve [] ["A B", "C D"])[0]? =
      some (([] : List Entry) ++
        ((pendingLines [] ["A B", "C D"]).filterMap (processSingleCode okResolve)).take 1)) ∧
    (retrySnapshots 2 okResolve [failedEntryAB]).getLast?
      = some (retryRun 2 okResolve [failedEntryAB]) := by
  constructor
  · exact (persistence_rewrite_behavior 2 (by decide) okResolve [] ["A B", "C D"] []).2.1
      0 (by decide)
  · have h := (persistence_rewrite_behavior 2 (by decide) okResolve [] []
      [failedEntryAB]).2.2.2.2.1
    have hval : (retrySnapshots 2 okResolve [failedEntryAB]).getLast?
        = some [successEntryAB] := by decide
    rw [hval, h [successEntryAB] hval]

/-- C9: the work-item parsing contract of process_single_code: an
empty stripped line yields nothing; a non-empty line without separator
still yields an item with empty payload and a structural error; a line
with a tab is split at the first tab, otherwise at the first space; and
one line's outcome never stops the processing of subsequent lines. -/
theorem workitem_parsing_contract (r : ResolveFn) (line : String) :
    (pyStrip line = "" → processSingleCode r line = none) ∧
    (pyStrip line ≠ "" → WellFormedLine line = false →
      ∃ e, processSingleCode r line = some e ∧ e.product_name = "" ∧
        e.found_code = none ∧ e.error = some "Formato inválido") ∧
    (hasChar '\t' (pyStrip line) = true →
      ∀ e, processSingleCode r line = some e →
        e.original_code = pyStrip (beforeFirst '\t' (pyStrip line)) ∧
        e.product_name = pyStrip (afterFirst '\t' (pyStrip line))) ∧
    (hasChar '\t' (pyStrip line) = false → hasChar ' ' (pyStrip line) = true →
      ∀ e, processSingleCode r line = some e →
        e.original_code = pyStrip (beforeFirst ' ' (pyStrip line)) ∧
        e.product_name = pyStrip (afterFirst ' ' (pyStrip line))) ∧
    (∀ rest : List String,
      runBatch r (line :: rest) = (processSingleCode r line).toList ++ runBatch r rest) := by
  refine ⟨fun h => processSingleCode_empty h, ?_, ?_, ?_, runBatch_cons r line⟩
  · intro hne hwf
    exact ⟨_, processSingleCode_malformed hne hwf, rfl, rfl, rfl⟩
  · intro ht e he
    have hne : pyStrip line ≠ "" := hasChar_pyStrip_ne_empty ht
    have hwf : WellFormedLine line = true := by
      unfold WellFormedLine
      rw [ht]
      rfl
    obtain ⟨h1, h2⟩ := partsOf_fields_tab ht
    rw [processSingleCode_resolved r hne hwf] at he
    cases hq : r (lineQuery line) <;> rw [hq] at he <;> cases he <;>
      exact ⟨by show pyStrip ((partsOf (pyStrip line)).headD "") = _; rw [h1],
        by show pyStrip ((partsOf (pyStrip line)).getD 1 "") = _; rw [h2]⟩
  · intro ht hs e he
    have hne : pyStrip line ≠ "" := hasChar_pyStrip_ne_empty hs
    have hwf : WellFormedLine line = true := by
      unfold WellFormedLine
      rw [hs]
      simp
    obtain ⟨h1, h2⟩ := partsOf_fields_space ht hs
    rw [processSingleCode_resolved r hne hwf] at he
    cases hq : r (lineQuery line) <;> rw [hq] at he <;> cases he <;>
      exact ⟨by show pyStrip ((partsOf (pyStrip line)).headD "") = _; rw [h1],
        by show pyStrip ((partsOf (pyStrip line)).getD 1 "") = _; rw [h2]⟩

theorem workitem_parsing_contract_witness :
    ∃ e, processSingleCode okResolve "onlyonefield" = some e ∧ e.product_name = "" ∧
      e.found_code = none ∧ e.error = some "Formato inválido" :=
  (workitem_parsing_contract okResolve "onlyonefield").2.1 (by decide) (by decide)

/-- C10: a processing run never modifies, reorders or removes loaded
entries: the final ledger is exactly the loaded entries in order
followed by the newly produced outcomes. -/
theorem processing_run_append_only (k : Nat) (hk : 0 < k) (r : ResolveFn)
    (existing : List Entry) (input : List String) :
    processRun k r existing input
      = existing ++ (pendingLines existing input).filterMap (processSingleCode r) :=
  processRun_eq_append k hk r existing input

theorem processing_run_append_only_witness :
    processRun 1 okResolve [successEntryAB] ["A B", "C D"]
      = [successEntryAB] ++ (pendingLines [successEntryAB] ["A B", "C D"]).filterMap
          (processSingleCode okResolve) :=
  processing_run_append_only 1 (by decide) okResolve [successEntryAB] ["A B", "C D"]

instance (c m : Nat) (tr : List Event) : Decidable (ChunkTrace c m tr) := by
  unfold ChunkTrace
  infer_instance

lemma mem_startsOf {tr : List Event} {c j : Nat} :
    (c, j) ∈ startsOf tr ↔ Event.start c j ∈ tr := by
  unfold startsOf
  rw [List.mem_filterMap]
  constructor
  · rintro ⟨e, he, hsome⟩
    cases e with
    | start c' j' =>
      simp only [Option.some.injEq, Prod.mk.injEq] at hsome
      obtain ⟨h1, h2⟩ := hsome
      subst h1
      subst h2
      exact he
    | finish c' j' => cases hsome
  · intro h
    exact ⟨Event.start c j, h, rfl⟩

lemma mem_finishesOf {tr : List Event} {c j : Nat} :
    (c, j) ∈ finishesOf tr ↔ Event.finish c j ∈ tr := by
  unfold finishesOf
  rw [List.mem_filterMap]
  constructor
  · rintro ⟨e, he, hsome⟩
    cases e with
    | start c' j' => cases hsome
    | finish c' j' =>
      simp only [Option.some.injEq, Prod.mk.injEq] at hsome
      obtain ⟨h1, h2⟩ := hsome
      subst h1
      subst h2
      exact he
  · intro h
    exact ⟨Event.finish c j, h, rfl⟩

lemma startsOf_append (a b : List Event) :
    startsOf (a ++ b) = startsOf a ++ startsOf b :=
  List.filterMap_append a b _

lemma finishesOf_append (a b : List Event) :
    finishesOf (a ++ b) = finishesOf a ++ finishesOf b :=
  List.filterMap_append a b _

/-- All chunk/item pairs of one chunk of m items. -/
def chunkPairs (c m : Nat) : List (Nat × Nat) :=
  (List.range m).map (fun j => (c, j))

lemma chunkPairs_nodup (c m : Nat) : (chunkPairs c m).Nodup := by
  refine List.Nodup.map ?_ (List.nodup_range m)
  intro a b hab
  simpa using hab

lemma chunkPairs_length (c m : Nat) : (chunkPairs c m).length = m := by
  simp [chunkPairs]

lemma chunkTrace_startsOf_subset {c m : Nat} {tr : List Event} (h : ChunkTrace c m tr) :
    startsOf tr ⊆ chunkPairs c m := by
  obtain ⟨hmem, _, _, _, _⟩ := h
  intro p hp
  obtain ⟨c', j'⟩ := p
  have he := mem_startsOf.mp hp
  have hcj := hmem _ he
  simp only [chunkOf, itemOf] at hcj
  obtain ⟨h1, h2⟩ := hcj
  subst h1
  exact List.mem_map.mpr ⟨j', List.mem_range.mpr h2, rfl⟩

lemma chunkTrace_finishesOf_subset {c m : Nat} {tr : List Event} (h : ChunkTrace c m tr) :
    finishesOf tr ⊆ chunkPairs c m := by
  obtain ⟨hmem, _, _, _, _⟩ := h
  intro p hp
  obtain ⟨c', j'⟩ := p
  have he := mem_finishesOf.mp hp
  have hcj := hmem _ he
  simp only [chunkOf, itemOf] at hcj
  obtain ⟨h1, h2⟩ := hcj
  subst h1
  exact List.mem_map.mpr ⟨j', List.mem_range.mpr h2, rfl⟩

lemma chunkTrace_startsOf_length {c m : Nat} {tr : List Event} (h : ChunkTrace c m tr) :
    (startsOf tr).length = m := by
  obtain ⟨hmem, hnds, hndf, hcomp, hpref⟩ := h
  have hle1 : (startsOf tr).length ≤ m := by
    have := (List.subperm_of_subset hnds
      (chunkTrace_startsOf_subset ⟨hmem, hnds, hndf, hcomp, hpref⟩)).length_le
    rwa [chunkPairs_length] at this
  have hle2 : m ≤ (startsOf tr).length := by
    have hsub : chunkPairs c m ⊆ startsOf tr := by
      intro p hp
      obtain ⟨j, hj, hpe⟩ := List.mem_map.mp hp
      subst hpe
      exact mem_startsOf.mpr (hcomp j (List.mem_range.mp hj)).1
    have := (List.subperm_of_subset (chunkPairs_nodup c m) hsub).length_le
    rwa [chunkPairs_length] at this
  omega

lemma chunkTrace_finishesOf_length {c m : Nat} {tr : List Event} (h : ChunkTrace c m tr) :
    (finishesOf tr).length = m := by
  obtain ⟨hmem, hnds, hndf, hcomp, hpref⟩ := h
  have hle1 : (finishesOf tr).length ≤ m := by
    have := (List.subperm_of_subset hndf
      (chunkTrace_finishesOf_subset ⟨hmem, hnds, hndf, hcomp, hpref⟩)).length_le
    rwa [chunkPairs_length] at this
  have hle2 : m ≤ (finishesOf tr).length := by
    have hsub : chunkPairs c m ⊆ finishesOf tr := by
      intro p hp
      obtain ⟨j, hj, hpe⟩ := List.mem_map.mp hp
      subst hpe
      exact mem_finishesOf.mpr (hcomp j (List.mem_range.mp hj)).2
    have := (List.subperm_of_subset (chunkPairs_nodup c m) hsub).length_le
    rwa [chunkPairs_length] at this
  omega

lemma chunkTrace_startsOf_sublist_le {c m : Nat} {tr : List Event} (h : ChunkTrace c m tr)
    (p : List Event) (hp : p.Sublist tr) : (startsOf p).length ≤ m := by
  calc (startsOf p).length ≤ (startsOf tr).length :=
        (List.Sublist.filterMap _ hp).length_le
    _ = m := chunkTrace_startsOf_length h

lemma take_flatten_decomp {α : Type} :
    ∀ (trs : List (List α)) (n : Nat), ∃ t r,
      t ≤ trs.length ∧
      trs.flatten.take n = (trs.take t).flatten ++ (trs.getD t []).take r := by
  intro trs
  induction trs with
  | nil => intro n; exact ⟨0, 0, le_rfl, by simp⟩
  | cons a rest ih =>
    intro n
    by_cases hn : n ≤ a.length
    · refine ⟨0, n, Nat.zero_le _, ?_⟩
      show (a ++ rest.flatten).take n = [].flatten ++ a.take n
      rw [List.take_append_eq_append_take, Nat.sub_eq_zero_of_le hn, List.take_zero,
        List.append_nil, List.flatten_nil, List.nil_append]
    · push_neg at hn
      obtain ⟨t, r, ht, heq⟩ := ih (n - a.length)
      refine ⟨t + 1, r, by simpa using ht, ?_⟩
      show (a ++ rest.flatten).take n = ((a :: rest).take (t + 1)).flatten ++ _
      rw [List.take_append_eq_append_take, List.take_of_length_le (le_of_lt hn), heq,
        List.take_succ_cons, List.flatten_cons, List.append_assoc]
      rfl

lemma startsOf_flatten_balanced :
    ∀ xs : List (List Event),
      (∀ x ∈ xs, (startsOf x).length = (finishesOf x).length) →
      (startsOf xs.flatten).length = (finishesOf xs.flatten).length := by
  intro xs
  induction xs with
  | nil => intro _; rfl
  | cons a rest ih =>
    intro h
    rw [List.flatten_cons, startsOf_append, finishesOf_append, List.length_append,
      List.length_append, h a (List.mem_cons_self a rest),
      ih (fun x hx => h x (List.mem_cons_of_mem a hx))]

lemma mem_take_getD {α : Type} (trs : List (List α)) (t : Nat) (x : List α)
    (hx : x ∈ trs.take t) : ∃ i, i < t ∧ i < trs.length ∧ x = trs.getD i [] := by
  obtain ⟨i, hi, hgx⟩ := List.mem_iff_getElem.mp hx
  have hlen : i < trs.length := by
    rw [List.length_take] at hi
    omega
  have hlt : i < t := by
    rw [List.length_take] at hi
    omega
  refine ⟨i, hlt, hlen, ?_⟩
  rw [List.getD_eq_getElem?_getD, List.getElem?_eq_getElem hlen]
  show x = trs[i]
  rw [← hgx, List.getElem_take]

lemma getD_mem_take {α : Type} (trs : List (List α)) {c t : Nat}
    (hct : c < t) (hcl : c < trs.length) : trs.getD c [] ∈ trs.take t := by
  have hc' : c < (trs.take t).length := by
    rw [List.length_take]
    omega
  have heq : (trs.take t)[c] = trs.getD c [] := by
    rw [List.getElem_take, List.getD_eq_getElem?_getD, List.getElem?_eq_getElem hcl]
    rfl
  rw [← heq]
  exact List.getElem_mem hc'

/-- C5: the pending queue is partitioned into consecutive chunks of
size k (the last possibly smaller); in every valid run trace each item
of an earlier chunk finishes before any item of a later chunk starts;
and the number of in-flight resolver calls never exceeds k at any
point of the trace. -/
theorem bounded_concurrency_chunking (k : Nat) (hk : 0 < k) (pending : List String)
    (tr : List Event) (h : RunTrace k pending tr) :
    (chunks k pending).flatten = pending ∧
    (∀ c ∈ chunks k pending, c.length ≤ k) ∧
    (∀ i : Nat, i + 1 < (chunks k pending).length →
      ((chunks k pending).getD i []).length = k) ∧
    (∀ n : Nat, inFlight (tr.take n) ≤ k) ∧
    (∀ n c' j' : Nat, (c', j') ∈ startsOf (tr.take n) →
      ∀ c : Nat, c < c' → ∀ j : Nat, j < ((chunks k pending).getD c []).length →
        (c, j) ∈ finishesOf (tr.take n)) := by
  obtain ⟨trs, rfl, hlen, hct⟩ := h
  refine ⟨chunks_flatten k hk pending, chunks_size_le k hk pending,
    chunks_getD_length k hk pending, ?_, ?_⟩
  · intro n
    obtain ⟨t, rr, ht, heq⟩ := take_flatten_decomp trs n
    rw [heq]
    unfold inFlight
    rw [startsOf_append, finishesOf_append, List.length_append, List.length_append]
    have hbal : (startsOf (trs.take t).flatten).length
        = (finishesOf (trs.take t).flatten).length := by
      apply startsOf_flatten_balanced
      intro x hx
      obtain ⟨i, hit, hil, hxe⟩ := mem_take_getD trs t x hx
      subst hxe
      have hci := hct i hil
      rw [chunkTrace_startsOf_length hci, chunkTrace_finishesOf_length hci]
    rw [hbal, Nat.add_sub_add_left]
    by_cases hlt : t < trs.length
    · have hci := hct t hlt
      have hs_le := chunkTrace_startsOf_sublist_le hci _ (List.take_sublist rr _)
      have hm_le : ((chunks k pending).getD t []).length ≤ k := by
        apply chunks_size_le k hk pending
        have htc : t < (chunks k pending).length := hlen ▸ hlt
        rw [List.getD_eq_getElem?_getD, List.getElem?_eq_getElem htc]
        exact List.getElem_mem htc
      exact le_trans (Nat.sub_le _ _) (le_trans hs_le hm_le)
    · push_neg at hlt
      have hnil : trs.getD t [] = [] := by
        rw [List.getD_eq_getElem?_getD, List.getElem?_eq_none hlt]
        rfl
      rw [hnil]
      simp [startsOf, finishesOf]
  · intro n c' j' hstart c hcc j hj
    obtain ⟨t, rr, ht, heq⟩ := take_flatten_decomp trs n
    rw [heq] at hstart ⊢
    rw [startsOf_append] at hstart
    rw [finishesOf_append]
    have hc' : c' ≤ t ∧ c' < trs.length := by
      rcases List.mem_append.mp hstart with hmA | hmp
      · have hev := mem_startsOf.mp hmA
        obtain ⟨x, hxmem, hexin⟩ := List.mem_flatten.mp hev
        obtain ⟨i, hit, hil, hxe⟩ := mem_take_getD trs t x hxmem
        subst hxe
        obtain ⟨hmem, _, _, _, _⟩ := hct i hil
        have hcj := hmem _ hexin
        simp only [chunkOf, itemOf] at hcj
        obtain ⟨h1, _⟩ := hcj
        subst h1
        exact ⟨le_of_lt hit, hil⟩
      · by_cases hlt : t < trs.length
        · obtain ⟨hmem, _, _, _, _⟩ := hct t hlt
          have hev := mem_startsOf.mp hmp
          have hin : Event.start c' j' ∈ trs.getD t [] := List.mem_of_mem_take hev
          have hcj := hmem _ hin
          simp only [chunkOf, itemOf] at hcj
          obtain ⟨h1, _⟩ := hcj
          refine ⟨le_of_eq h1, ?_⟩
          rw [h1]
          exact hlt
        · exfalso
          push_neg at hlt
          have hnil : trs.getD t [] = [] := by
            rw [List.getD_eq_getElem?_getD, List.getElem?_eq_none hlt]
            rfl
          rw [hnil] at hmp
          simp [startsOf] at hmp
    obtain ⟨hc't, hc'len⟩ := hc'
    have hclt : c < t := lt_of_lt_of_le hcc hc't
    have hclen : c < trs.length := lt_trans hcc hc'len
    obtain ⟨_, _, _, hcomp, _⟩ := hct c hclen
    have hfin : Event.finish c j ∈ trs.getD c [] := (hcomp j hj).2
    apply List.mem_append.mpr
    left
    exact mem_finishesOf.mpr
      (List.mem_flatten.mpr ⟨trs.getD c [], getD_mem_take trs hclt hclen, hfin⟩)

theorem bounded_concurrency_chunking_witness :
    (chunks 2 ["A B", "C D", "E F"]).flatten = ["A B", "C D", "E F"] ∧
    inFlight ([Event.start 0 0, Event.start 0 1, Event.finish 0 1, Event.finish 0 0,
      Event.start 1 0, Event.finish 1 0].take 3) ≤ 2 := by
  have h := bounded_concurrency_chunking 2 (by decide) ["A B", "C D", "E F"]
    [Event.start 0 0, Event.start 0 1, Event.finish 0 1, Event.finish 0 0,
      Event.start 1 0, Event.finish 1 0]
    ⟨[[Event.start 0 0, Event.start 0 1, Event.finish 0 1, Event.finish 0 0],
      [Event.start 1 0, Event.finish 1 0]], rfl, by decide, by decide⟩
  exact ⟨h.1, h.2.2.2.1 3⟩

end Scrapper
